import Mathlib

/-!
Verification development for the accelerometer-log analyzer
(`process_data.py`): a CSV loader with row-level finiteness filtering,
a median-based sampling-rate estimator, a Hann-windowed one-sided FFT
amplitude spectrum, and the orchestration layer's spectral trimming.

Floating-point values are embedded as `F`: either a finite rational or
one of the non-finite IEEE values (NaN, +inf, -inf).  Exact rational
arithmetic models the finite-value computations; the DFT itself lives
in `ℝ`/`ℂ`.
-/

namespace ProcessData

/-- Model of an IEEE double as seen by this program: a finite value
(modelled exactly as a rational) or one of NaN, +inf, -inf. -/
inductive F : Type
  | finite (q : ℚ)
  | nan
  | inf
  | ninf
deriving DecidableEq, Repr

/-- `np.isfinite`: true exactly on finite values. -/
def F.isFinite : F → Bool
  | F.finite _ => true
  | _ => false

/-- IEEE comparison `x > 0`: NaN compares false; +inf is positive. -/
def F.gtZero : F → Bool
  | F.finite q => decide (0 < q)
  | F.nan => false
  | F.inf => true
  | F.ninf => false

/-- IEEE subtraction on the float model (NaN propagates; inf - inf = NaN). -/
def F.sub : F → F → F
  | F.finite a, F.finite b => F.finite (a - b)
  | F.finite _, F.inf => F.ninf
  | F.finite _, F.ninf => F.inf
  | F.inf, F.finite _ => F.inf
  | F.inf, F.ninf => F.inf
  | F.inf, F.inf => F.nan
  | F.ninf, F.finite _ => F.ninf
  | F.ninf, F.inf => F.ninf
  | F.ninf, F.ninf => F.nan
  | F.nan, _ => F.nan
  | _, F.nan => F.nan

/-- `np.diff`: consecutive differences `a[i+1] - a[i]`. -/
def diffF (l : List F) : List F :=
  List.zipWith F.sub (l.drop 1) l

/-- `np.diff` on a list of plain rationals. -/
def diffQ (l : List ℚ) : List ℚ :=
  List.zipWith (· - ·) (l.drop 1) l

/-- The mask `np.isfinite(dt) & (dt > 0)` from `estimate_fs_from_timedelta_ms`. -/
def validDiffs (t : List F) : List F :=
  (diffF t).filter (fun d => d.isFinite && d.gtZero)

/-- Extract the rational payloads of a list of floats (non-finite entries,
which never survive the program's finiteness masks, are dropped). -/
def toQs (l : List F) : List ℚ :=
  l.filterMap (fun v => match v with | F.finite q => some q | _ => none)

/-- `np.mean` on finite values: sum divided by length. -/
def meanQ (l : List ℚ) : ℚ :=
  l.sum / l.length

/-- `np.median`: sort, take the middle element (odd length) or the mean of
the two middle elements (even length). -/
def medianQ (l : List ℚ) : ℚ :=
  let s := List.insertionSort (· ≤ ·) l
  if l.length % 2 = 1 then s.getD (l.length / 2) 0
  else (s.getD (l.length / 2 - 1) 0 + s.getD (l.length / 2) 0) / 2

/-- `estimate_fs_from_timedelta_ms`: diff the time column, keep finite
strictly-positive steps, require at least 2 of them, return
`(1000 / median, median)`. -/
def estimate_fs_from_timedelta_ms (t : List F) : Except String (ℚ × ℚ) :=
  let dt := validDiffs t
  if dt.length < 2 then
    Except.error "Not enough valid time steps to estimate sampling rate."
  else
    let median_dt_ms := medianQ (toQs dt)
    Except.ok (1000 / median_dt_ms, median_dt_ms)

/-- `x[np.isfinite(x)]` at the head of `fft_spectrum`: the finite samples
of the input signal, in order, as rationals. -/
def cleanQ (sig : List F) : List ℚ :=
  toQs (sig.filter F.isFinite)

/-- The `if remove_dc and x.size: x = x - np.mean(x)` step of `fft_spectrum`:
mean subtraction guarded by the DC flag and non-emptiness. -/
def dcAdjust (remove_dc : Bool) (x : List ℚ) : List ℚ :=
  if remove_dc && !(x.length == 0) then x.map (fun v => v - meanQ x) else x

/-- `np.hanning(n)` evaluated at index `j`:
`0.5 - 0.5 * cos(2 * pi * j / (n - 1))`. -/
noncomputable def hann (n : ℕ) (j : ℕ) : ℝ :=
  0.5 - 0.5 * Real.cos (2 * Real.pi * j / ((n : ℝ) - 1))

/-- `np.sum(w)` for the Hann window of length `n`. -/
noncomputable def windowSum (n : ℕ) : ℝ :=
  ∑ j ∈ Finset.range n, hann n j

/-- `np.fft.rfft(x * w)` at bin `k`: the one-sided DFT coefficient of the
Hann-windowed signal,
`X[k] = sum_j x[j] * w[j] * exp(-2 * pi * i * j * k / n)`. -/
noncomputable def rfftCoef (x : List ℚ) (k : ℕ) : ℂ :=
  ∑ j ∈ Finset.range x.length,
    (((x.getD j 0 : ℝ) * hann x.length j : ℝ) : ℂ) *
      Complex.exp (-(2 * Real.pi * Complex.I * j * k) / x.length)

/-- `(np.abs(X) / n) * (2.0 / scale)` with `scale = np.sum(w) / n`:
the amplitude the code assigns to bin `k`. -/
noncomputable def ampAt (x : List ℚ) (k : ℕ) : ℝ :=
  (Complex.abs (rfftCoef x k) / x.length) * (2 / (windowSum x.length / x.length))

/-- `np.fft.rfftfreq(n, d=1/fs)`: the frequency bins `k * fs / n` for
`k = 0 .. n/2`. -/
def rfreqs (n : ℕ) (fs_hz : ℚ) : List ℚ :=
  (List.range (n / 2 + 1)).map (fun k : ℕ => (k : ℚ) * fs_hz / (n : ℚ))

/-- The one-sided amplitude list returned by `fft_spectrum`. -/
noncomputable def ampList (x : List ℚ) : List ℝ :=
  (List.range (x.length / 2 + 1)).map (ampAt x)

/-- `fft_spectrum(signal, fs_hz, remove_dc)`: filter to finite samples,
optionally remove the mean, require at least 8 samples, then return the
frequency bins and Hann-windowed one-sided amplitude spectrum. -/
noncomputable def fft_spectrum (signal : List F) (fs_hz : ℚ) (remove_dc : Bool) :
    Except String (List ℚ × List ℝ) :=
  if (dcAdjust remove_dc (cleanQ signal)).length < 8 then
    Except.error "Not enough samples for FFT."
  else
    Except.ok (rfreqs (dcAdjust remove_dc (cleanQ signal)).length fs_hz,
      ampList (dcAdjust remove_dc (cleanQ signal)))

/-- A raised-cosine (Hann) window value, written from the spec's words:
`(1 - cos(2 * pi * j / (n - 1))) / 2`. -/
noncomputable def raisedCosine (n : ℕ) (j : ℕ) : ℝ :=
  (1 - Real.cos (2 * Real.pi * j / ((n : ℝ) - 1))) / 2

/-- The spec's "one-sided discrete Fourier transform of the signal
multiplied elementwise by a Hann window of length n", with the windowed
signal formed as an elementwise product list and summed as a list. -/
noncomputable def specCoefficient (x : List ℚ) (k : ℕ) : ℂ :=
  (((List.range x.length).map
    (fun j => (((x.getD j 0 : ℝ) * raisedCosine x.length j : ℝ) : ℂ) *
      Complex.exp (-(2 * Real.pi * Complex.I * j * k) / x.length))).sum)

/-- The spec's amplitude formula
`amplitude[k] = (|coefficient[k]| / n) * (2 / (sum(window) / n))`, with
`sum(window)` the list sum of the raised-cosine window values. -/
noncomputable def specAmplitude (x : List ℚ) (k : ℕ) : ℝ :=
  (Complex.abs (specCoefficient x k) / x.length) *
    (2 / ((((List.range x.length).map (raisedCosine x.length)).sum) / x.length))

/-- One source row of the CSV: the four named float fields. -/
structure Row : Type where
  t : F
  x : F
  y : F
  z : F
deriving DecidableEq, Repr

/-- The row mask `np.isfinite(t_ms) & np.isfinite(ax) & np.isfinite(ay) & np.isfinite(az)`. -/
def Row.allFinite (r : Row) : Bool :=
  r.t.isFinite && r.x.isFinite && r.y.isFinite && r.z.isFinite

/-- Boolean-mask indexing `column[ok]`: keep the entries whose mask bit is true. -/
def applyMask {α : Type} (mask : List Bool) (l : List α) : List α :=
  (List.zip mask l).filterMap (fun p => if p.1 then some p.2 else none)

/-- The four header names `load_csv` requires. -/
def requiredFields : List String :=
  ["timedelta_ms", "Xacc", "Yacc", "Zacc"]

/-- A parsed record source: an optional header row of field names, and the
data rows with their four fields already parsed as floats (a field that
fails to parse is NaN). -/
structure Csv : Type where
  header : Option (List String)
  rows : List Row

/-- `load_csv`.  Modelled from the spec: the header handling lives in
`np.genfromtxt(names=True)` and the named-column lookups, which are library
code; per the spec the Loader "signals a FormatError if the header is absent
or missing a required field name".  The row filtering is from the source:
one finiteness mask over the four fields, applied to each column. -/
def load_csv (c : Csv) : Except String (List F × List F × List F × List F) :=
  match c.header with
  | none => Except.error "FormatError: header row is absent"
  | some h =>
    if requiredFields.all (fun f => h.contains f) then
      let ok := c.rows.map Row.allFinite
      Except.ok (applyMask ok (c.rows.map Row.t), applyMask ok (c.rows.map Row.x),
        applyMask ok (c.rows.map Row.y), applyMask ok (c.rows.map Row.z))
    else Except.error "FormatError: missing required field name"

/-- The spectra section of `main`: compute the four channel spectra, then
drop the first two bins of the x/y/z spectra and the first bin of the
magnitude spectrum (`fx[2:], mx[2:]`, ..., `fm[1:], mm[1:]`).  The derived
magnitude signal is received from the earlier part of `main`. -/
noncomputable def mainSpectra (ax ay az amag : List F) (fs_hz : ℚ) :
    Except String (List (String × List ℚ × List ℝ)) := do
  let fmx ← fft_spectrum ax fs_hz false
  let fmy ← fft_spectrum ay fs_hz false
  let fmz ← fft_spectrum az fs_hz false
  let fmm ← fft_spectrum amag fs_hz false
  return [("Xacc", fmx.1.drop 2, fmx.2.drop 2),
          ("Yacc", fmy.1.drop 2, fmy.2.drop 2),
          ("Zacc", fmz.1.drop 2, fmz.2.drop 2),
          ("AccMag", fmm.1.drop 1, fmm.2.drop 1)]

/-- Build a time sequence from a start value and a list of consecutive
steps: the timestamps whose `np.diff` is exactly `ds`. -/
def mkTimes (t0 : ℚ) (ds : List ℚ) : List F :=
  (ds.scanl (· + ·) t0).map F.finite

end ProcessData

namespace ProcessData

theorem dcAdjust_false (x : List ℚ) : dcAdjust false x = x := rfl

theorem dcAdjust_length (dc : Bool) (x : List ℚ) : (dcAdjust dc x).length = x.length := by
  unfold dcAdjust
  split <;> simp

theorem dcAdjust_nil (dc : Bool) : dcAdjust dc [] = [] := by
  unfold dcAdjust
  split <;> simp

/-- C5: the Rate Estimator succeeds exactly when at least 2 finite,
strictly positive consecutive time differences exist. -/
theorem estimate_rate_ok_iff (t : List F) :
    (∃ v, estimate_fs_from_timedelta_ms t = Except.ok v) ↔
      2 ≤ (validDiffs t).length := by
  unfold estimate_fs_from_timedelta_ms
  by_cases h : (validDiffs t).length < 2
  · simp only [if_pos h]
    constructor
    · rintro ⟨v, hv⟩
      cases hv
    · omega
  · simp only [if_neg h]
    exact ⟨fun _ => by omega, fun _ => ⟨_, rfl⟩⟩

/-- C1: with at least 2 valid differences, the estimator returns the pair
`(1000 / median, median)` where `median` is the median of the retained
(finite, strictly positive) consecutive differences. -/
theorem estimate_rate_formula (t : List F) (h : 2 ≤ (validDiffs t).length) :
    estimate_fs_from_timedelta_ms t =
      Except.ok (1000 / medianQ (toQs (validDiffs t)), medianQ (toQs (validDiffs t))) := by
  unfold estimate_fs_from_timedelta_ms
  rw [if_neg (by omega)]

/-- Witness for C1 at the concrete time sequence `0, 10, 20, 30`. -/
theorem estimate_rate_formula_witness :
    2 ≤ (validDiffs (mkTimes 0 [10, 10, 10])).length ∧
      estimate_fs_from_timedelta_ms (mkTimes 0 [10, 10, 10]) =
        Except.ok (1000 / medianQ (toQs (validDiffs (mkTimes 0 [10, 10, 10]))),
          medianQ (toQs (validDiffs (mkTimes 0 [10, 10, 10])))) :=
  ⟨by simp [mkTimes, validDiffs, diffF, F.sub, F.isFinite, F.gtZero, List.scanl],
    estimate_rate_formula _
      (by simp [mkTimes, validDiffs, diffF, F.sub, F.isFinite, F.gtZero, List.scanl])⟩

/-- C4: the Spectrum Engine returns a (frequency, amplitude) pair exactly
when the signal has at least 8 finite samples after filtering; below 8 it
signals the insufficient-data error, and there is no other failure path. -/
theorem fft_spectrum_ok_iff (sig : List F) (fs_hz : ℚ) (dc : Bool) :
    (∃ v, fft_spectrum sig fs_hz dc = Except.ok v) ↔ 8 ≤ (cleanQ sig).length := by
  unfold fft_spectrum
  rw [dcAdjust_length]
  by_cases h : (cleanQ sig).length < 8
  · simp only [if_pos h]
    constructor
    · rintro ⟨v, hv⟩
      cases hv
    · omega
  · simp only [if_neg h]
    exact ⟨fun _ => by omega, fun _ => ⟨_, rfl⟩⟩

/-- C10: below 8 finite samples (including zero) the Spectrum Engine
errors regardless of the DC flag; mean removal never changes the sample
count, and on an empty filtered signal the mean-removal branch is never
taken (the guard short-circuits). -/
theorem fft_spectrum_insufficient (sig : List F) (fs_hz : ℚ) (dc : Bool)
    (h : (cleanQ sig).length < 8) :
    fft_spectrum sig fs_hz dc = Except.error "Not enough samples for FFT." ∧
      (dcAdjust dc (cleanQ sig)).length = (cleanQ sig).length ∧
      ((cleanQ sig).length = 0 → dcAdjust dc (cleanQ sig) = cleanQ sig) := by
  refine ⟨?_, dcAdjust_length dc (cleanQ sig), ?_⟩
  · unfold fft_spectrum
    rw [dcAdjust_length, if_pos h]
  · intro h0
    rw [List.length_eq_zero] at h0
    rw [h0]
    exact dcAdjust_nil dc

/-- Witness for C10 at a signal with zero finite samples. -/
theorem fft_spectrum_insufficient_witness :
    (cleanQ [F.nan, F.inf]).length < 8 ∧
      fft_spectrum [F.nan, F.inf] 100 true = Except.error "Not enough samples for FFT." ∧
      (dcAdjust true (cleanQ [F.nan, F.inf])).length = (cleanQ [F.nan, F.inf]).length ∧
      ((cleanQ [F.nan, F.inf]).length = 0 →
        dcAdjust true (cleanQ [F.nan, F.inf]) = cleanQ [F.nan, F.inf]) :=
  ⟨by simp [cleanQ, toQs, F.isFinite],
    fft_spectrum_insufficient [F.nan, F.inf] 100 true (by simp [cleanQ, toQs, F.isFinite])⟩

/-- C9: the Loader succeeds exactly when a header row is present and
contains all four required field names; invalid data rows never cause a
failure, and there is no other failure path. -/
theorem load_csv_format_error_iff (c : Csv) :
    (∃ v, load_csv c = Except.ok v) ↔
      ∃ h, c.header = some h ∧ ∀ f ∈ requiredFields, f ∈ h := by
  unfold load_csv
  cases hh : c.header with
  | none =>
    constructor
    · rintro ⟨v, hv⟩
      cases hv
    · rintro ⟨h, hsome, _⟩
      cases hsome
  | some hd =>
    by_cases hall : requiredFields.all (fun f => hd.contains f)
    · simp only [if_pos hall]
      constructor
      · intro _
        refine ⟨hd, rfl, ?_⟩
        intro f hf
        have := List.all_eq_true.mp hall f hf
        simpa using this
      · intro _
        exact ⟨_, rfl⟩
    · simp only [if_neg hall]
      constructor
      · rintro ⟨v, hv⟩
        cases hv
      · rintro ⟨h, hsome, hmem⟩
        injection hsome with hsome
        subst hsome
        exact absurd (List.all_eq_true.mpr (fun f hf => by simpa using hmem f hf)) hall

end ProcessData

namespace ProcessData

theorem applyMask_map {α β : Type} (p : α → Bool) (f : α → β) (l : List α) :
    applyMask (l.map p) (l.map f) = (l.filter p).map f := by
  induction l with
  | nil => rfl
  | cons a l ih =>
    simp only [List.map_cons, applyMask, List.zip_cons_cons, List.filterMap_cons] at ih ⊢
    cases hpa : p a
    · simpa [List.filter_cons, hpa] using ih
    · simpa [List.filter_cons, hpa] using ih

/-- C6: the four sequences returned by the Loader are the four projections
of the same filtered row list, hence equal-length and index-aligned with a
common source row; rows with a non-finite field are absent from all four
outputs, fully finite rows are present unmodified, and source order is
preserved (the kept rows form a sublist of the input). -/
theorem load_csv_alignment (c : Csv) (t_ms ax ay az : List F)
    (h : load_csv c = Except.ok (t_ms, ax, ay, az)) :
    t_ms = (c.rows.filter Row.allFinite).map Row.t ∧
      ax = (c.rows.filter Row.allFinite).map Row.x ∧
      ay = (c.rows.filter Row.allFinite).map Row.y ∧
      az = (c.rows.filter Row.allFinite).map Row.z ∧
      t_ms.length = ax.length ∧ ax.length = ay.length ∧ ay.length = az.length ∧
      (∀ i (hi : i < t_ms.length) (hx : i < ax.length) (hy : i < ay.length)
        (hz : i < az.length),
        (⟨t_ms.get ⟨i, hi⟩, ax.get ⟨i, hx⟩, ay.get ⟨i, hy⟩, az.get ⟨i, hz⟩⟩ : Row) ∈ c.rows) ∧
      List.Sublist (c.rows.filter Row.allFinite) c.rows ∧
      (∀ r ∈ c.rows, r.allFinite = true → r ∈ c.rows.filter Row.allFinite) ∧
      (∀ r : Row, r.allFinite = false → r ∉ c.rows.filter Row.allFinite) := by
  unfold load_csv at h
  cases hh : c.header with
  | none => rw [hh] at h; cases h
  | some hd =>
    rw [hh] at h
    dsimp only at h
    by_cases hall : requiredFields.all (fun f => hd.contains f)
    · rw [if_pos hall] at h
      injection h with h
      injection h with h1 h
      injection h with h2 h
      injection h with h3 h4
      rw [applyMask_map] at h1 h2 h3 h4
      subst h1; subst h2; subst h3; subst h4
      refine ⟨rfl, rfl, rfl, rfl, by simp, by simp, by simp, ?_, List.filter_sublist _, ?_, ?_⟩
      · intro i hi hx hy hz
        simp only [List.length_map] at hi
        have hmem : (c.rows.filter Row.allFinite).get ⟨i, hi⟩ ∈ c.rows.filter Row.allFinite :=
          List.get_mem _ _ _
        have heq : (⟨((c.rows.filter Row.allFinite).map Row.t).get ⟨i, by simpa using hi⟩,
            ((c.rows.filter Row.allFinite).map Row.x).get ⟨i, by simpa using hi⟩,
            ((c.rows.filter Row.allFinite).map Row.y).get ⟨i, by simpa using hi⟩,
            ((c.rows.filter Row.allFinite).map Row.z).get ⟨i, by simpa using hi⟩⟩ : Row) =
            (c.rows.filter Row.allFinite).get ⟨i, hi⟩ := by
          simp [List.get_eq_getElem, List.getElem_map]
        rw [heq]
        exact List.mem_of_mem_filter hmem
      · intro r hr hfin
        exact List.mem_filter.mpr ⟨hr, hfin⟩
      · intro r hfin hmem
        have := (List.mem_filter.mp hmem).2
        rw [hfin] at this
        cases this
    · rw [if_neg hall] at h
      cases h

/-- Witness for C6: a three-row source whose middle row has a NaN field. -/
theorem load_csv_alignment_witness :
    load_csv ⟨some ["timedelta_ms", "Xacc", "Yacc", "Zacc"],
        [⟨F.finite 0, F.finite 1, F.finite 2, F.finite 3⟩,
         ⟨F.finite 10, F.nan, F.finite 2, F.finite 3⟩,
         ⟨F.finite 20, F.finite 4, F.finite 5, F.finite 6⟩]⟩ =
      Except.ok ([F.finite 0, F.finite 20], [F.finite 1, F.finite 4],
        [F.finite 2, F.finite 5], [F.finite 3, F.finite 6]) ∧
      [F.finite 0, F.finite 20] =
        (([⟨F.finite 0, F.finite 1, F.finite 2, F.finite 3⟩,
           ⟨F.finite 10, F.nan, F.finite 2, F.finite 3⟩,
           ⟨F.finite 20, F.finite 4, F.finite 5, F.finite 6⟩] :
          List Row).filter Row.allFinite).map Row.t :=
  ⟨by rfl,
    (load_csv_alignment ⟨some ["timedelta_ms", "Xacc", "Yacc", "Zacc"],
        [⟨F.finite 0, F.finite 1, F.finite 2, F.finite 3⟩,
         ⟨F.finite 10, F.nan, F.finite 2, F.finite 3⟩,
         ⟨F.finite 20, F.finite 4, F.finite 5, F.finite 6⟩]⟩
      [F.finite 0, F.finite 20] [F.finite 1, F.finite 4]
      [F.finite 2, F.finite 5] [F.finite 3, F.finite 6] (by rfl)).1⟩

end ProcessData

namespace ProcessData

theorem getD_drop {α : Type} (l : List α) (n i : ℕ) (d : α) :
    (l.drop n).getD i d = l.getD (n + i) d := by
  simp [List.getD_eq_getElem?_getD, List.getElem?_drop]

theorem fft_spectrum_ok_of_le (sig : List F) (fs_hz : ℚ) (dc : Bool)
    (h : 8 ≤ (cleanQ sig).length) :
    fft_spectrum sig fs_hz dc =
      Except.ok (rfreqs (cleanQ sig).length fs_hz, ampList (dcAdjust dc (cleanQ sig))) := by
  unfold fft_spectrum
  rw [dcAdjust_length, if_neg (by omega)]

/-- C7: the orchestration layer drops exactly the first two entries of both
the frequency and amplitude sequences for the x, y and z spectra, and
exactly the first entry for the magnitude spectrum; every remaining entry
is the corresponding entry of the untrimmed spectrum, unchanged. -/
theorem mainSpectra_trims (ax ay az amag : List F) (fs_hz : ℚ)
    (hx : 8 ≤ (cleanQ ax).length) (hy : 8 ≤ (cleanQ ay).length)
    (hz : 8 ≤ (cleanQ az).length) (hm : 8 ≤ (cleanQ amag).length) :
    mainSpectra ax ay az amag fs_hz =
      Except.ok
        [("Xacc", (rfreqs (cleanQ ax).length fs_hz).drop 2, (ampList (cleanQ ax)).drop 2),
         ("Yacc", (rfreqs (cleanQ ay).length fs_hz).drop 2, (ampList (cleanQ ay)).drop 2),
         ("Zacc", (rfreqs (cleanQ az).length fs_hz).drop 2, (ampList (cleanQ az)).drop 2),
         ("AccMag", (rfreqs (cleanQ amag).length fs_hz).drop 1,
           (ampList (cleanQ amag)).drop 1)] ∧
      (∀ i d, ((ampList (cleanQ ax)).drop 2).getD i d = (ampList (cleanQ ax)).getD (2 + i) d) ∧
      (∀ i d, ((rfreqs (cleanQ ax).length fs_hz).drop 2).getD i d =
        (rfreqs (cleanQ ax).length fs_hz).getD (2 + i) d) ∧
      (∀ i d, ((ampList (cleanQ ay)).drop 2).getD i d = (ampList (cleanQ ay)).getD (2 + i) d) ∧
      (∀ i d, ((ampList (cleanQ az)).drop 2).getD i d = (ampList (cleanQ az)).getD (2 + i) d) ∧
      (∀ i d, ((ampList (cleanQ amag)).drop 1).getD i d =
        (ampList (cleanQ amag)).getD (1 + i) d) ∧
      (∀ i d, ((rfreqs (cleanQ amag).length fs_hz).drop 1).getD i d =
        (rfreqs (cleanQ amag).length fs_hz).getD (1 + i) d) := by
  refine ⟨?_, fun i d => getD_drop _ 2 i d, fun i d => getD_drop _ 2 i d,
    fun i d => getD_drop _ 2 i d, fun i d => getD_drop _ 2 i d,
    fun i d => getD_drop _ 1 i d, fun i d => getD_drop _ 1 i d⟩
  unfold mainSpectra
  rw [fft_spectrum_ok_of_le ax fs_hz false hx, fft_spectrum_ok_of_le ay fs_hz false hy,
    fft_spectrum_ok_of_le az fs_hz false hz, fft_spectrum_ok_of_le amag fs_hz false hm]
  simp [dcAdjust_false, bind, Except.bind, pure, Except.pure]

/-- Witness for C7: all four channels fed the same concrete 8-sample signal. -/
theorem mainSpectra_trims_witness :
    8 ≤ (cleanQ [F.finite 0, F.finite 1, F.finite 2, F.finite 3, F.finite 4, F.finite 5,
        F.finite 6, F.finite 7]).length ∧
      mainSpectra
        [F.finite 0, F.finite 1, F.finite 2, F.finite 3, F.finite 4, F.finite 5,
          F.finite 6, F.finite 7]
        [F.finite 0, F.finite 1, F.finite 2, F.finite 3, F.finite 4, F.finite 5,
          F.finite 6, F.finite 7]
        [F.finite 0, F.finite 1, F.finite 2, F.finite 3, F.finite 4, F.finite 5,
          F.finite 6, F.finite 7]
        [F.finite 0, F.finite 1, F.finite 2, F.finite 3, F.finite 4, F.finite 5,
          F.finite 6, F.finite 7] 100 =
      Except.ok
        [("Xacc", (rfreqs (cleanQ [F.finite 0, F.finite 1, F.finite 2, F.finite 3, F.finite 4,
            F.finite 5, F.finite 6, F.finite 7]).length 100).drop 2,
          (ampList (cleanQ [F.finite 0, F.finite 1, F.finite 2, F.finite 3, F.finite 4,
            F.finite 5, F.finite 6, F.finite 7])).drop 2),
         ("Yacc", (rfreqs (cleanQ [F.finite 0, F.finite 1, F.finite 2, F.finite 3, F.finite 4,
            F.finite 5, F.finite 6, F.finite 7]).length 100).drop 2,
          (ampList (cleanQ [F.finite 0, F.finite 1, F.finite 2, F.finite 3, F.finite 4,
            F.finite 5, F.finite 6, F.finite 7])).drop 2),
         ("Zacc", (rfreqs (cleanQ [F.finite 0, F.finite 1, F.finite 2, F.finite 3, F.finite 4,
            F.finite 5, F.finite 6, F.finite 7]).length 100).drop 2,
          (ampList (cleanQ [F.finite 0, F.finite 1, F.finite 2, F.finite 3, F.finite 4,
            F.finite 5, F.finite 6, F.finite 7])).drop 2),
         ("AccMag", (rfreqs (cleanQ [F.finite 0, F.finite 1, F.finite 2, F.finite 3, F.finite 4,
            F.finite 5, F.finite 6, F.finite 7]).length 100).drop 1,
          (ampList (cleanQ [F.finite 0, F.finite 1, F.finite 2, F.finite 3, F.finite 4,
            F.finite 5, F.finite 6, F.finite 7])).drop 1)] :=
  ⟨by simp [cleanQ, toQs, F.isFinite],
    (mainSpectra_trims
      [F.finite 0, F.finite 1, F.finite 2, F.finite 3, F.finite 4, F.finite 5,
        F.finite 6, F.finite 7]
      [F.finite 0, F.finite 1, F.finite 2, F.finite 3, F.finite 4, F.finite 5,
        F.finite 6, F.finite 7]
      [F.finite 0, F.finite 1, F.finite 2, F.finite 3, F.finite 4, F.finite 5,
        F.finite 6, F.finite 7]
      [F.finite 0, F.finite 1, F.finite 2, F.finite 3, F.finite 4, F.finite 5,
        F.finite 6, F.finite 7] 100
      (by simp [cleanQ, toQs, F.isFinite]) (by simp [cleanQ, toQs, F.isFinite])
      (by simp [cleanQ, toQs, F.isFinite]) (by simp [cleanQ, toQs, F.isFinite])).1⟩

end ProcessData


namespace ProcessData

theorem hann_nonneg (n j : ℕ) : 0 ≤ hann n j := by
  unfold hann
  nlinarith [Real.cos_le_one (2 * Real.pi * j / ((n : ℝ) - 1))]

theorem hann_one_pos (n : ℕ) (hn : 3 ≤ n) : 0 < hann n 1 := by
  unfold hann
  have hn1 : (2 : ℝ) ≤ (n : ℝ) - 1 := by
    have h3 : (3 : ℝ) ≤ (n : ℝ) := by exact_mod_cast hn
    linarith
  have hpi : 0 < Real.pi := Real.pi_pos
  have harg : 0 < 2 * Real.pi * (1 : ℕ) / ((n : ℝ) - 1) := by
    push_cast
    positivity
  have harg2 : 2 * Real.pi * (1 : ℕ) / ((n : ℝ) - 1) < 2 * Real.pi := by
    push_cast
    rw [div_lt_iff₀ (by linarith)]
    nlinarith
  have hcos : Real.cos (2 * Real.pi * (1 : ℕ) / ((n : ℝ) - 1)) < 1 := by
    rcases lt_or_eq_of_le (Real.cos_le_one (2 * Real.pi * (1 : ℕ) / ((n : ℝ) - 1))) with h | h
    · exact h
    · exfalso
      have := (Real.cos_eq_one_iff_of_lt_of_lt (by linarith) harg2).mp h
      linarith
  nlinarith

theorem windowSum_pos (n : ℕ) (hn : 3 ≤ n) : 0 < windowSum n := by
  unfold windowSum
  refine Finset.sum_pos' (fun j _ => hann_nonneg n j)
    ⟨1, Finset.mem_range.mpr (by omega), hann_one_pos n hn⟩

theorem ampAt_nonneg (x : List ℚ) (k : ℕ) (hn : 3 ≤ x.length) : 0 ≤ ampAt x k := by
  unfold ampAt
  have h1 : (0 : ℝ) ≤ Complex.abs (rfftCoef x k) / x.length :=
    div_nonneg (Complex.abs.nonneg _) (Nat.cast_nonneg _)
  have h2 : (0 : ℝ) < windowSum x.length / x.length := by
    apply div_pos (windowSum_pos _ hn)
    have h0 : 0 < x.length := by omega
    exact_mod_cast h0
  exact mul_nonneg h1 (le_of_lt (div_pos two_pos h2))

/-- C3: for an even filtered length n >= 8 and positive sampling rate, the
Spectrum Engine returns n/2 + 1 frequency bins equal to `k * fs_hz / n`,
strictly ascending from 0 to the Nyquist frequency `fs_hz / 2`, and an
amplitude sequence of the same length with all entries non-negative. -/
theorem fft_spectrum_shape (sig : List F) (fs_hz : ℚ) (dc : Bool)
    (h8 : 8 ≤ (cleanQ sig).length) (he : (cleanQ sig).length % 2 = 0) (hfs : 0 < fs_hz) :
    ∃ f m, fft_spectrum sig fs_hz dc = Except.ok (f, m) ∧
      f.length = (cleanQ sig).length / 2 + 1 ∧
      m.length = f.length ∧
      f = (List.range ((cleanQ sig).length / 2 + 1)).map
        (fun k : ℕ => (k : ℚ) * fs_hz / ((cleanQ sig).length : ℚ)) ∧
      List.Pairwise (· < ·) f ∧
      f.head? = some 0 ∧
      f.getLast? = some (fs_hz / 2) ∧
      (∀ a ∈ m, (0 : ℝ) ≤ a) := by
  have hn : (0 : ℚ) < ((cleanQ sig).length : ℚ) := by
    have h0 : 0 < (cleanQ sig).length := by omega
    exact_mod_cast h0
  refine ⟨rfreqs (cleanQ sig).length fs_hz, ampList (dcAdjust dc (cleanQ sig)),
    fft_spectrum_ok_of_le sig fs_hz dc h8, ?_, ?_, rfl, ?_, ?_, ?_, ?_⟩
  · simp [rfreqs]
  · simp [ampList, rfreqs, dcAdjust_length]
  · apply List.Pairwise.map
    · intro a b hab
      have h1 : (a : ℚ) * fs_hz < (b : ℚ) * fs_hz := by
        apply mul_lt_mul_of_pos_right _ hfs
        exact_mod_cast hab
      exact (div_lt_div_iff_of_pos_right hn).mpr h1
    · exact List.pairwise_lt_range _
  · simp [rfreqs, List.range_succ_eq_map]
  · rw [rfreqs, List.range_succ, List.map_append, List.map_singleton, List.getLast?_concat]
    obtain ⟨m, hm⟩ : ∃ m, (cleanQ sig).length = 2 * m :=
      ⟨(cleanQ sig).length / 2, by omega⟩
    have hm4 : 4 ≤ m := by omega
    have hmQ : ((m : ℚ)) ≠ 0 := Nat.cast_ne_zero.mpr (by omega)
    rw [hm]
    congr 1
    rw [Nat.mul_div_cancel_left _ (by norm_num : 0 < 2)]
    push_cast
    field_simp
    ring
  · intro a ha
    simp only [ampList, List.mem_map] at ha
    obtain ⟨k, _, rfl⟩ := ha
    apply ampAt_nonneg
    rw [dcAdjust_length]
    omega

/-- Witness for C3 at a concrete 8-sample signal and `fs_hz = 100`. -/
theorem fft_spectrum_shape_witness :
    8 ≤ (cleanQ [F.finite 0, F.finite 1, F.finite 2, F.finite 3, F.finite 4, F.finite 5, F.finite 6, F.finite 7]).length ∧ (cleanQ [F.finite 0, F.finite 1, F.finite 2, F.finite 3, F.finite 4, F.finite 5, F.finite 6, F.finite 7]).length % 2 = 0 ∧ (0 : ℚ) < 100 ∧
      (∃ f m, fft_spectrum [F.finite 0, F.finite 1, F.finite 2, F.finite 3, F.finite 4, F.finite 5, F.finite 6, F.finite 7] 100 false = Except.ok (f, m) ∧
        f.length = (cleanQ [F.finite 0, F.finite 1, F.finite 2, F.finite 3, F.finite 4, F.finite 5, F.finite 6, F.finite 7]).length / 2 + 1 ∧
        m.length = f.length ∧
        f = (List.range ((cleanQ [F.finite 0, F.finite 1, F.finite 2, F.finite 3, F.finite 4, F.finite 5, F.finite 6, F.finite 7]).length / 2 + 1)).map
          (fun k : ℕ => (k : ℚ) * 100 / ((cleanQ [F.finite 0, F.finite 1, F.finite 2, F.finite 3, F.finite 4, F.finite 5, F.finite 6, F.finite 7]).length : ℚ)) ∧
        List.Pairwise (· < ·) f ∧
        f.head? = some 0 ∧
        f.getLast? = some (100 / 2) ∧
        (∀ a ∈ m, (0 : ℝ) ≤ a)) :=
  ⟨by simp [cleanQ, toQs, F.isFinite], by simp [cleanQ, toQs, F.isFinite], by norm_num,
    fft_spectrum_shape [F.finite 0, F.finite 1, F.finite 2, F.finite 3, F.finite 4, F.finite 5, F.finite 6, F.finite 7] 100 false
      (by simp [cleanQ, toQs, F.isFinite]) (by simp [cleanQ, toQs, F.isFinite]) (by norm_num)⟩

end ProcessData


namespace ProcessData

theorem listSum_map_range {M : Type} [AddCommMonoid M] (f : ℕ → M) (n : ℕ) :
    ((List.range n).map f).sum = ∑ j ∈ Finset.range n, f j := by
  induction n with
  | zero => simp
  | succ n ih =>
    rw [List.range_succ, List.map_append, List.sum_append, Finset.sum_range_succ, ih]
    simp

theorem raisedCosine_eq_hann (n j : ℕ) : raisedCosine n j = hann n j := by
  unfold raisedCosine hann
  ring

theorem specCoefficient_eq_rfftCoef (x : List ℚ) (k : ℕ) :
    specCoefficient x k = rfftCoef x k := by
  unfold specCoefficient rfftCoef
  rw [listSum_map_range]
  refine Finset.sum_congr rfl (fun j _ => ?_)
  rw [raisedCosine_eq_hann]

theorem specAmplitude_eq_ampAt (x : List ℚ) (k : ℕ) :
    specAmplitude x k = ampAt x k := by
  unfold specAmplitude ampAt windowSum
  rw [specCoefficient_eq_rfftCoef, listSum_map_range]
  have hw : ∑ j ∈ Finset.range x.length, raisedCosine x.length j =
      ∑ j ∈ Finset.range x.length, hann x.length j :=
    Finset.sum_congr rfl (fun j _ => raisedCosine_eq_hann _ j)
  rw [hw]

/-- C2: with n >= 8 finite samples, every returned amplitude equals the
spec formula `(|coefficient[k]| / n) * (2 / (sum(window) / n))`, where the
coefficient is the one-sided DFT of the raised-cosine-windowed signal. -/
theorem fft_spectrum_amplitude (sig : List F) (fs_hz : ℚ) (dc : Bool)
    (h8 : 8 ≤ (cleanQ sig).length) :
    ∃ f m, fft_spectrum sig fs_hz dc = Except.ok (f, m) ∧
      m.length = (cleanQ sig).length / 2 + 1 ∧
      ∀ k (hk : k < m.length),
        m.get ⟨k, hk⟩ = specAmplitude (dcAdjust dc (cleanQ sig)) k := by
  refine ⟨rfreqs (cleanQ sig).length fs_hz, ampList (dcAdjust dc (cleanQ sig)),
    fft_spectrum_ok_of_le sig fs_hz dc h8, ?_, ?_⟩
  · simp [ampList, dcAdjust_length]
  · intro k hk
    simp only [ampList, List.length_map, List.length_range] at hk
    simp [ampList, List.get_eq_getElem, List.getElem_map, List.getElem_range,
      specAmplitude_eq_ampAt]

/-- Witness for C2 at a concrete 8-sample signal. -/
theorem fft_spectrum_amplitude_witness :
    8 ≤ (cleanQ [F.finite 0, F.finite 1, F.finite 2, F.finite 3, F.finite 4, F.finite 5, F.finite 6, F.finite 7]).length ∧
      (∃ f m, fft_spectrum [F.finite 0, F.finite 1, F.finite 2, F.finite 3, F.finite 4, F.finite 5, F.finite 6, F.finite 7] 100 false = Except.ok (f, m) ∧
        m.length = (cleanQ [F.finite 0, F.finite 1, F.finite 2, F.finite 3, F.finite 4, F.finite 5, F.finite 6, F.finite 7]).length / 2 + 1 ∧
        ∀ k (hk : k < m.length),
          m.get ⟨k, hk⟩ = specAmplitude (dcAdjust false (cleanQ [F.finite 0, F.finite 1, F.finite 2, F.finite 3, F.finite 4, F.finite 5, F.finite 6, F.finite 7])) k) :=
  ⟨by simp [cleanQ, toQs, F.isFinite],
    fft_spectrum_amplitude [F.finite 0, F.finite 1, F.finite 2, F.finite 3, F.finite 4, F.finite 5, F.finite 6, F.finite 7] 100 false (by simp [cleanQ, toQs, F.isFinite])⟩

end ProcessData

namespace ProcessData

theorem diffF_map_finite (l : List ℚ) :
    diffF (l.map F.finite) = (diffQ l).map F.finite := by
  unfold diffF diffQ
  rw [← List.map_drop, List.zipWith_map, List.map_zipWith]
  rfl

theorem diffQ_scanl (t0 : ℚ) (ds : List ℚ) :
    diffQ (List.scanl (· + ·) t0 ds) = ds := by
  induction ds generalizing t0 with
  | nil => rfl
  | cons a ds ih =>
    cases ds with
    | nil => simp [diffQ, List.scanl]
    | cons b ds2 =>
      have hin := ih (t0 + a)
      simp only [List.scanl_cons, List.singleton_append] at hin ⊢
      have hcc : diffQ (t0 :: (t0 + a) :: List.scanl (· + ·) (t0 + a + b) ds2) =
          (t0 + a - t0) :: diffQ ((t0 + a) :: List.scanl (· + ·) (t0 + a + b) ds2) := rfl
      rw [hcc, hin]
      simp

theorem validDiffs_mkTimes (t0 : ℚ) (ds : List ℚ) (hpos : ∀ x ∈ ds, 0 < x) :
    validDiffs (mkTimes t0 ds) = ds.map F.finite := by
  unfold validDiffs mkTimes
  rw [diffF_map_finite, diffQ_scanl]
  apply List.filter_eq_self.mpr
  intro a ha
  obtain ⟨x, hx, rfl⟩ := List.mem_map.mp ha
  simp [F.isFinite, F.gtZero, hpos x hx]

theorem toQs_map_finite (l : List ℚ) : toQs (l.map F.finite) = l := by
  induction l with
  | nil => rfl
  | cons a l ih =>
    simp only [toQs, List.map_cons, List.filterMap_cons] at ih ⊢
    rw [ih]

theorem estimate_mkTimes (t0 : ℚ) (ds : List ℚ) (hpos : ∀ x ∈ ds, 0 < x)
    (hlen : 2 ≤ ds.length) :
    estimate_fs_from_timedelta_ms (mkTimes t0 ds) =
      Except.ok (1000 / medianQ ds, medianQ ds) := by
  unfold estimate_fs_from_timedelta_ms
  dsimp only
  rw [validDiffs_mkTimes t0 ds hpos, toQs_map_finite]
  rw [if_neg (by rw [List.length_map]; omega)]

theorem sorted_replicate (n : ℕ) (d : ℚ) : List.Sorted (· ≤ ·) (List.replicate n d) := by
  induction n with
  | zero => simp
  | succ n ih =>
    rw [List.replicate_succ]
    refine List.sorted_cons.mpr ⟨?_, ih⟩
    intro b hb
    rw [List.eq_of_mem_replicate hb]

theorem sorted_replicate_concat (n : ℕ) (d g : ℚ) (hdg : d ≤ g) :
    List.Sorted (· ≤ ·) (List.replicate n d ++ [g]) := by
  induction n with
  | zero => simp
  | succ n ih =>
    rw [List.replicate_succ, List.cons_append]
    refine List.sorted_cons.mpr ⟨?_, ih⟩
    intro b hb
    rcases List.mem_append.mp hb with h | h
    · rw [List.eq_of_mem_replicate h]
    · rw [List.mem_singleton.mp h]
      exact hdg

theorem insertionSort_of_sorted {l : List ℚ} (h : List.Sorted (· ≤ ·) l) :
    List.insertionSort (· ≤ ·) l = l :=
  List.eq_of_perm_of_sorted (List.perm_insertionSort _ l) (List.sorted_insertionSort _ l) h

theorem medianQ_perm {l₁ l₂ : List ℚ} (hp : l₁.Perm l₂) : medianQ l₁ = medianQ l₂ := by
  unfold medianQ
  rw [hp.length_eq, List.eq_of_perm_of_sorted
    ((List.perm_insertionSort _ l₁).trans (hp.trans (List.perm_insertionSort _ l₂).symm))
    (List.sorted_insertionSort _ l₁) (List.sorted_insertionSort _ l₂)]

theorem getD_replicate_self (n i : ℕ) (d x : ℚ) (h : i < n) :
    (List.replicate n d).getD i x = d := by
  rw [List.getD_eq_getElem?_getD, List.getElem?_replicate, if_pos h]
  rfl

theorem medianQ_replicate (n : ℕ) (d : ℚ) (hn : 1 ≤ n) :
    medianQ (List.replicate n d) = d := by
  unfold medianQ
  rw [insertionSort_of_sorted (sorted_replicate n d)]
  simp only [List.length_replicate]
  by_cases h : n % 2 = 1
  · rw [if_pos h, getD_replicate_self _ _ _ _ (by omega)]
  · rw [if_neg h, getD_replicate_self _ _ _ _ (by omega),
      getD_replicate_self _ _ _ _ (by omega)]
    ring

theorem medianQ_replicate_concat (n : ℕ) (d g : ℚ) (hn : 2 ≤ n) (hdg : d ≤ g) :
    medianQ (List.replicate n d ++ [g]) = d := by
  unfold medianQ
  rw [insertionSort_of_sorted (sorted_replicate_concat n d g hdg)]
  simp only [List.length_append, List.length_replicate, List.length_singleton]
  by_cases h : (n + 1) % 2 = 1
  · rw [if_pos h, List.getD_append _ _ _ _ (by simp; omega),
      getD_replicate_self _ _ _ _ (by omega)]
  · rw [if_neg h, List.getD_append _ _ _ _ (by simp; omega),
      List.getD_append _ _ _ _ (by simp; omega),
      getD_replicate_self _ _ _ _ (by omega), getD_replicate_self _ _ _ _ (by omega)]
    ring

theorem perm_outlier (p q : ℕ) (d g : ℚ) :
    (List.replicate p d ++ g :: List.replicate q d).Perm
      (List.replicate (p + q) d ++ [g]) := by
  have h1 : (g :: List.replicate q d).Perm (List.replicate q d ++ [g]) := by
    have h0 := @List.perm_append_comm ℚ [g] (List.replicate q d)
    simpa using h0
  refine List.Perm.trans (h1.append_left (List.replicate p d)) ?_
  rw [List.replicate_add, ← List.append_assoc]

/-- C8: inserting one large outlier gap `g` anywhere among otherwise
uniform positive intervals `d` (with at least 2 uniform intervals, so the
outlier stays a minority) leaves the estimate equal to
`(1000 / median, median)` with median `d` — identical to the estimate for
the purely uniform sequence. -/
theorem estimate_rate_outlier_robust (t0 d g : ℚ) (p q : ℕ)
    (hd : 0 < d) (hg : d < g) (hn : 2 ≤ p + q) :
    estimate_fs_from_timedelta_ms
        (mkTimes t0 (List.replicate p d ++ g :: List.replicate q d)) =
      Except.ok (1000 / d, d) ∧
    estimate_fs_from_timedelta_ms (mkTimes t0 (List.replicate (p + q) d)) =
      Except.ok (1000 / d, d) := by
  constructor
  · rw [estimate_mkTimes]
    · rw [medianQ_perm (perm_outlier p q d g), medianQ_replicate_concat (p + q) d g hn hg.le]
    · intro x hx
      rcases List.mem_append.mp hx with h | h
      · rw [List.eq_of_mem_replicate h]; exact hd
      · rcases List.mem_cons.mp h with h | h
        · rw [h]; exact lt_trans hd hg
        · rw [List.eq_of_mem_replicate h]; exact hd
    · simp only [List.length_append, List.length_replicate, List.length_cons]
      omega
  · rw [estimate_mkTimes]
    · rw [medianQ_replicate (p + q) d (by omega)]
    · intro x hx
      rw [List.eq_of_mem_replicate hx]; exact hd
    · simp only [List.length_replicate]
      omega

/-- Witness for C8: 10 ms uniform intervals with a single 1000 ms gap. -/
theorem estimate_rate_outlier_robust_witness :
    (0 : ℚ) < 10 ∧ (10 : ℚ) < 1000 ∧ 2 ≤ 1 + 1 ∧
      (estimate_fs_from_timedelta_ms
          (mkTimes 0 (List.replicate 1 10 ++ (1000 : ℚ) :: List.replicate 1 10)) =
        Except.ok (1000 / 10, 10) ∧
      estimate_fs_from_timedelta_ms (mkTimes 0 (List.replicate (1 + 1) (10 : ℚ))) =
        Except.ok (1000 / 10, 10)) :=
  ⟨by norm_num, by norm_num, by norm_num,
    estimate_rate_outlier_robust 0 10 1000 1 1 (by norm_num) (by norm_num) (by norm_num)⟩

end ProcessData
